import Mathlib

/-!
Shallow embedding of the chart geometry and axis-planning engine of the
globadge-compatible chart generator (`src/charts/shared.ts`,
`src/charts/stacked-area.ts`, `src/charts/line.ts`), together with theorems
settling the specification claims about it.

Modelling conventions:
* JavaScript numbers are modelled as exact rationals (`ℚ`); epoch-millisecond
  timestamps as integers (`ℤ`).  `Math.log10`/`Math.floor` and `10 ** p` are
  modelled by the exact `Int.log` / `zpow` on `ℚ`; the float comparisons
  against `Math.sqrt 50/10/2` are modelled by the equivalent exact squared
  comparisons (the arguments are strictly positive wherever the code reaches
  them), and the equivalence with the real `Real.sqrt`/`Real.logb` form is
  proved as a theorem.
* `Number.POSITIVE_INFINITY` in the interval search is modelled by
  `Option ℚ` with `none` as infinity.
* Thrown exceptions are modelled by `Except`.
-/

/-! ## Scale factory (`shared.ts`, `createLinearScale` / `createTimeScale`) -/

/-- Embeds `createLinearScale` from `shared.ts`: affine map with the degenerate-domain
guard `d1 - d0 || 1` (a zero span is replaced by a denominator of 1). -/
def createLinearScale (domain : ℚ × ℚ) (range : ℚ × ℚ) (value : ℚ) : ℚ :=
  let d0 := domain.1
  let d1 := domain.2
  let r0 := range.1
  let r1 := range.2
  let m := (r1 - r0) / (if d1 - d0 = 0 then 1 else d1 - d0)
  r0 + (value - d0) * m

/-- Embeds `createTimeScale` from `shared.ts`, which delegates to `createLinearScale`. -/
def createTimeScale (domain : ℚ × ℚ) (range : ℚ × ℚ) (value : ℚ) : ℚ :=
  createLinearScale domain range value

/-! ## Numeric tick planner (`shared.ts`, `tickStep` / `niceLinearDomain` /
`linearTicks`) -/

/-- Embeds `tickStep` from `shared.ts`.  Here `power` is `Math.floor(Math.log10 step0)`
(exact: `Int.log 10`), and the float comparisons `error >= Math.sqrt c` for
`c ∈ {50, 10, 2}` are written as `c ≤ error ^ 2`, which is equivalent since
`error` is nonnegative (see `tickStep_eq_nice_real`). -/
def tickStep (start stop : ℚ) (count : ℕ) : ℚ :=
  let step0 : ℚ := |stop - start| / (max 1 count : ℕ)
  let power : ℤ := Int.log 10 step0
  let error : ℚ := step0 / (10 : ℚ) ^ power
  let step : ℚ :=
    if 50 ≤ error ^ 2 then 10
    else if 10 ≤ error ^ 2 then 5
    else if 2 ≤ error ^ 2 then 2
    else 1
  step * (10 : ℚ) ^ power * (if stop - start < 0 then -1 else 1)

/-- Embeds `niceLinearDomain` from `shared.ts`: widen a degenerate domain by
`|start| or 1`, otherwise round outward to multiples of the tick step. -/
def niceLinearDomain (domain : ℚ × ℚ) (count : ℕ) : ℚ × ℚ :=
  let start := domain.1
  let stop := domain.2
  if start = stop then
    let delta := |if start = 0 then 1 else start|
    (start - delta, stop + delta)
  else
    let step := tickStep start stop count
    (⌊start / step⌋ * step, ⌈stop / step⌉ * step)

/-- Embeds `linearTicks` from `shared.ts`: one tick for a degenerate domain, else all
integer multiples of the step between `⌈min/step⌉` and `⌊max/step⌋`. -/
def linearTicks (domain : ℚ × ℚ) (count : ℕ) : List ℚ :=
  let start := domain.1
  let stop := domain.2
  if start = stop then [start]
  else
    let step := tickStep start stop count
    let startTick : ℤ := ⌈min start stop / step⌉
    let endTick : ℤ := ⌊max start stop / step⌋
    (List.range (endTick + 1 - startTick).toNat).map
      fun j : ℕ => ((startTick + (j : ℤ)) : ℚ) * step

/-! ## Value-axis domain (`shared.ts`, `computeYDomain`) -/

/-- The fields of the numeric-axis options that `computeYDomain` and
`linearTicks` consume (`NumericAxisOptions` in `types.ts`). -/
structure NumericAxisOptions where
  domain : Option (ℚ × ℚ) := none
  nice : Option Bool := none
  tickCount : Option ℕ := none
deriving DecidableEq

/-- Models `Math.min` over a list, as used on a spread argument list. -/
def listMin : List ℚ → ℚ
  | [] => 0
  | v :: vs => vs.foldl min v

/-- Models `Math.max` over a list, as used on a spread argument list. -/
def listMax : List ℚ → ℚ
  | [] => 0
  | v :: vs => vs.foldl max v

/-- Embeds `computeYDomain` from `shared.ts`. -/
def computeYDomain (values : List ℚ) (axis : Option NumericAxisOptions) : ℚ × ℚ :=
  if values = [] then (0, 1)
  else
    let mn := ((axis.bind NumericAxisOptions.domain).map Prod.fst).getD (listMin values)
    let mx := ((axis.bind NumericAxisOptions.domain).map Prod.snd).getD (listMax values)
    if mn = mx then
      let delta := |if mn = 0 then 1 else mn|
      (mn - delta, mx + delta)
    else
      let nice := (axis.bind NumericAxisOptions.nice).getD true
      if nice then niceLinearDomain (mn, mx) ((axis.bind NumericAxisOptions.tickCount).getD 6)
      else (mn, mx)

/-- C9 helper: the step is positive on an ascending domain. -/
theorem tickStep_pos {start stop : ℚ} (h : start < stop) (count : ℕ) :
    0 < tickStep start stop count := by
  unfold tickStep
  have hlt : ¬stop - start < 0 := by linarith
  simp only [hlt, if_false]
  have hp : (0 : ℚ) < (10 : ℚ) ^ Int.log 10 (|stop - start| / (max 1 count : ℕ)) :=
    zpow_pos (by norm_num) _
  split_ifs <;> nlinarith [hp]

/-- The step is negative on a descending domain. -/
theorem tickStep_neg {start stop : ℚ} (h : stop < start) (count : ℕ) :
    tickStep start stop count < 0 := by
  unfold tickStep
  have hlt : stop - start < 0 := by linarith
  simp only [hlt, if_true]
  have hp : (0 : ℚ) < (10 : ℚ) ^ Int.log 10 (|stop - start| / (max 1 count : ℕ)) :=
    zpow_pos (by norm_num) _
  split_ifs <;> nlinarith [hp]

/-- C9: on a degenerate numeric domain (`a == a`) `linearTicks` emits exactly
one tick, equal to the bound itself, whatever the tick count. -/
theorem linearTicks_degenerate (a : ℚ) (count : ℕ) :
    linearTicks (a, a) count = [a] := by
  simp [linearTicks]

/-! ## Structure of `linearTicks` on non-degenerate domains -/

/-- Index formula for the ticks of a non-degenerate domain. -/
theorem linearTicks_getD {a b : ℚ} (n : ℕ) (h : a ≠ b) (j : ℕ)
    (hj : j < (linearTicks (a, b) n).length) :
    (linearTicks (a, b) n).getD j 0 =
      ((⌈min a b / tickStep a b n⌉ + j : ℤ) : ℚ) * tickStep a b n := by
  unfold linearTicks at hj ⊢
  simp only [h, if_false, List.length_map, List.length_range] at hj
  simp [h, List.getD_eq_getElem?_getD, List.getElem?_map, List.getElem?_range, hj]

/-- Length formula for the ticks of a non-degenerate domain. -/
theorem linearTicks_length {a b : ℚ} (n : ℕ) (h : a ≠ b) :
    (linearTicks (a, b) n).length =
      (⌊max a b / tickStep a b n⌋ + 1 - ⌈min a b / tickStep a b n⌉).toNat := by
  unfold linearTicks
  simp [h]

/-- Unfolding equation for `linearTicks` on a literal pair. -/
theorem linearTicks_eq (a b : ℚ) (n : ℕ) :
    linearTicks (a, b) n =
      if a = b then [a]
      else
        (List.range (⌊max a b / tickStep a b n⌋ + 1 - ⌈min a b / tickStep a b n⌉).toNat).map
          fun j : ℕ => ((⌈min a b / tickStep a b n⌉ + (j : ℤ)) : ℚ) * tickStep a b n := rfl

/-- C3 (amended): on an ascending domain every emitted tick is an integer
multiple `k·step` of the step (hence `start + k·step` whenever `start` is
itself a multiple of the step, as after nicing), every tick lies inside the
domain inclusive, and consecutive ticks ascend by exactly one step. -/
theorem linearTicks_spec {a b : ℚ} (n : ℕ) (h : a < b) :
    (∀ q ∈ linearTicks (a, b) n,
        (∃ k : ℤ, q = k * tickStep a b n) ∧ a ≤ q ∧ q ≤ b) ∧
      (∀ j, j + 1 < (linearTicks (a, b) n).length →
        (linearTicks (a, b) n).getD (j + 1) 0 =
            (linearTicks (a, b) n).getD j 0 + tickStep a b n ∧
          (linearTicks (a, b) n).getD j 0 < (linearTicks (a, b) n).getD (j + 1) 0) := by
  have hne : a ≠ b := ne_of_lt h
  have hstep : 0 < tickStep a b n := tickStep_pos h n
  have hmin : min a b = a := min_eq_left h.le
  have hmax : max a b = b := max_eq_right h.le
  constructor
  · intro q hq
    rw [linearTicks_eq] at hq
    simp only [hne, if_false, hmin, hmax, List.mem_map, List.mem_range] at hq
    obtain ⟨j, hj, rfl⟩ := hq
    have hc := Int.le_ceil (a / tickStep a b n)
    have hf := Int.floor_le (b / tickStep a b n)
    have hje : (⌈a / tickStep a b n⌉ : ℚ) + (j : ℚ) ≤ (⌊b / tickStep a b n⌋ : ℚ) := by
      have hz : ⌈a / tickStep a b n⌉ + (j : ℤ) ≤ ⌊b / tickStep a b n⌋ := by omega
      exact_mod_cast hz
    refine ⟨⟨⌈a / tickStep a b n⌉ + (j : ℤ), by push_cast; ring⟩, ?_, ?_⟩
    · push_cast
      have h1 : a / tickStep a b n ≤ (⌈a / tickStep a b n⌉ : ℚ) + (j : ℚ) := by
        have hj0 : (0 : ℚ) ≤ (j : ℚ) := by positivity
        linarith
      have h2 := mul_le_mul_of_nonneg_right h1 hstep.le
      rwa [div_mul_cancel₀ _ (ne_of_gt hstep)] at h2
    · push_cast
      have h1 : (⌈a / tickStep a b n⌉ : ℚ) + (j : ℚ) ≤ b / tickStep a b n :=
        le_trans hje hf
      have h2 := mul_le_mul_of_nonneg_right h1 hstep.le
      rwa [div_mul_cancel₀ _ (ne_of_gt hstep)] at h2
  · intro j hj1
    have hj0 : j < (linearTicks (a, b) n).length := by omega
    rw [linearTicks_getD n hne (j + 1) hj1, linearTicks_getD n hne j hj0]
    constructor
    · push_cast
      ring
    · have hlt : ((⌈min a b / tickStep a b n⌉ + (j : ℕ) : ℤ) : ℚ) <
          ((⌈min a b / tickStep a b n⌉ + ((j : ℕ) + 1 : ℕ) : ℤ) : ℚ) := by
        push_cast
        linarith
      exact mul_lt_mul_of_pos_right hlt hstep

/-- Evaluates `Int.log 10` at a concrete rational via the characterizing
power bounds (the recursion behind `Int.log` does not reduce definitionally). -/
theorem intLog10_eq {r : ℚ} {z : ℤ} (hr : 0 < r) (h1 : (10 : ℚ) ^ z ≤ r)
    (h2 : r < (10 : ℚ) ^ (z + 1)) : Int.log 10 r = z := by
  have hb : 1 < (10 : ℕ) := by norm_num
  have hle : z ≤ Int.log 10 r := by
    rw [← Int.zpow_le_iff_le_log hb hr]
    exact_mod_cast h1
  have hlt : Int.log 10 r < z + 1 := by
    rw [← Int.lt_zpow_iff_log_lt hb hr]
    exact_mod_cast h2
  omega

/-- C3 counterexample: on the domain `[1/2, 21/2]` with tick count 10 the
first emitted tick is `1`, which is not of the form `start + k·step` for any
integer `k` (the step is `1` and `start = 1/2`). -/
theorem linearTicks_not_start_aligned :
    (1 : ℚ) ∈ linearTicks (1/2, 21/2) 10 ∧
      ∀ k : ℤ, (1 : ℚ) ≠ 1/2 + k * tickStep (1/2) (21/2) 10 := by
  have hlog : Int.log 10 (|21/2 - (1 : ℚ)/2| / ((max 1 10 : ℕ) : ℚ)) = 0 := by
    have harg : |21/2 - (1 : ℚ)/2| / ((max 1 10 : ℕ) : ℚ) = 1 := by
      rw [show (max 1 10 : ℕ) = 10 from rfl]
      norm_num
    rw [harg, Int.log_one_right]
  have hstep : tickStep (1/2) (21/2) 10 = 1 := by
    simp only [tickStep]
    rw [hlog]
    norm_num
  constructor
  · rw [linearTicks_eq, hstep, if_neg (by norm_num : ¬(1/2 : ℚ) = 21/2)]
    rw [min_eq_left (by norm_num : (1/2 : ℚ) ≤ 21/2),
      max_eq_right (by norm_num : (1/2 : ℚ) ≤ 21/2), div_one, div_one]
    rw [show ⌈(1/2 : ℚ)⌉ = 1 by rw [Int.ceil_eq_iff]; constructor <;> norm_num,
      show ⌊(21/2 : ℚ)⌋ = 10 by rw [Int.floor_eq_iff]; constructor <;> norm_num]
    refine List.mem_map.mpr ⟨0, ?_, ?_⟩
    · decide
    · norm_num
  · intro k hk
    rw [hstep, mul_one] at hk
    have h2 : (2 * k : ℤ) = 1 := by
      have : ((2 * k : ℤ) : ℚ) = 1 := by push_cast; linarith
      exact_mod_cast this
    omega

/-- C3 witness instance: the domain `[0, 10]` with tick count 5. -/
theorem linearTicks_spec_witness :
    (0 : ℚ) < 10 ∧
      ((∀ q ∈ linearTicks ((0 : ℚ), 10) 5,
          (∃ k : ℤ, q = k * tickStep 0 10 5) ∧ 0 ≤ q ∧ q ≤ 10) ∧
        (∀ j, j + 1 < (linearTicks ((0 : ℚ), 10) 5).length →
          (linearTicks ((0 : ℚ), 10) 5).getD (j + 1) 0 =
              (linearTicks ((0 : ℚ), 10) 5).getD j 0 + tickStep 0 10 5 ∧
            (linearTicks ((0 : ℚ), 10) 5).getD j 0 <
              (linearTicks ((0 : ℚ), 10) 5).getD (j + 1) 0)) :=
  ⟨by norm_num, linearTicks_spec 5 (by norm_num)⟩

/-- C10: on a descending numeric domain (`stop < start`) `linearTicks` returns
the empty list (the negative step makes the enumeration's start index exceed
its end index); such a domain reaches `linearTicks` through an explicit
value-axis domain override with nicing disabled, which `computeYDomain`
passes through unchanged. -/
theorem linearTicks_descending_empty {a b : ℚ} (n : ℕ) (h : b < a) :
    linearTicks (a, b) n = [] ∧
      computeYDomain [5] (some ⟨some (10, 0), some false, none⟩) = (10, 0) := by
  have hne : a ≠ b := (ne_of_lt h).symm
  have hstep : tickStep a b n < 0 := tickStep_neg h n
  have hmin : min a b = b := min_eq_right h.le
  have hmax : max a b = a := max_eq_left h.le
  constructor
  · rw [linearTicks_eq]
    simp only [hne, if_false, hmin, hmax]
    have hdiv : a / tickStep a b n < b / tickStep a b n :=
      div_lt_div_of_neg_of_lt hstep h
    have hlt : ⌊a / tickStep a b n⌋ < ⌈b / tickStep a b n⌉ := by
      have h1 := Int.floor_le (a / tickStep a b n)
      have h2 := Int.le_ceil (b / tickStep a b n)
      by_contra hcon
      push_neg at hcon
      have : (⌈b / tickStep a b n⌉ : ℚ) ≤ (⌊a / tickStep a b n⌋ : ℚ) := by
        exact_mod_cast hcon
      linarith
    have hz : (⌊a / tickStep a b n⌋ + 1 - ⌈b / tickStep a b n⌉).toNat = 0 := by
      omega
    rw [hz]
    simp
  · decide

/-- C10 witness instance: the descending domain `[10, 0]`. -/
theorem linearTicks_descending_empty_witness :
    (0 : ℚ) < 10 ∧
      (linearTicks ((10 : ℚ), 0) 6 = [] ∧
        computeYDomain [5] (some ⟨some (10, 0), some false, none⟩) = (10, 0)) :=
  ⟨by norm_num, linearTicks_descending_empty 6 (by norm_num)⟩

/-! ## The "nice number" snapping rule of `tickStep` (C2) -/

/-- Follows the claim's wording for the snapping rule: snap to the *smallest*
member of `{1, 2, 5, 10}` that is `≥ error`.  This is compared against the
source's `tickStep`, which snaps with the thresholds `√50`, `√10`, `√2`. -/
def tickStepClaim (start stop : ℚ) (count : ℕ) : ℚ :=
  let step0 : ℚ := |stop - start| / (max 1 count : ℕ)
  let power : ℤ := Int.log 10 step0
  let error : ℚ := step0 / (10 : ℚ) ^ power
  let step : ℚ :=
    if error ≤ 1 then 1
    else if error ≤ 2 then 2
    else if error ≤ 5 then 5
    else 10
  step * (10 : ℚ) ^ power * (if stop - start < 0 then -1 else 1)

/-- C2 counterexample: on the domain `[0, 12]` with count 10 the relative
error is `6/5`; the smallest member of `{1,2,5,10}` that is `≥ 6/5` is `2`,
but the source snaps `6/5 < √2` down to `1`, so the produced steps differ. -/
theorem tickStep_snap_counterexample :
    tickStep 0 12 10 = 1 ∧ tickStepClaim 0 12 10 = 2 ∧
      tickStep 0 12 10 ≠ tickStepClaim 0 12 10 := by
  have hlog : Int.log 10 (|(12 : ℚ) - 0| / ((max 1 10 : ℕ) : ℚ)) = 0 := by
    have harg : |(12 : ℚ) - 0| / ((max 1 10 : ℕ) : ℚ) = 6/5 := by
      rw [show (max 1 10 : ℕ) = 10 from rfl]
      norm_num
    rw [harg]
    exact intLog10_eq (by norm_num) (by norm_num) (by norm_num)
  have h1 : tickStep 0 12 10 = 1 := by
    simp only [tickStep]
    rw [hlog, show (max 1 10 : ℕ) = 10 from rfl]
    norm_num
  have h2 : tickStepClaim 0 12 10 = 2 := by
    simp only [tickStepClaim]
    rw [hlog, show (max 1 10 : ℕ) = 10 from rfl]
    norm_num
  refine ⟨h1, h2, ?_⟩
  rw [h1, h2]
  norm_num

/-- The value of `Int.log 10` is unchanged by the cast `ℚ → ℝ` on positive arguments. -/
theorem intLog10_ratCast {q : ℚ} (hq : 0 < q) :
    Int.log 10 ((q : ℝ)) = Int.log 10 q := by
  have hq' : (0 : ℝ) < (q : ℝ) := by exact_mod_cast hq
  have hb : 1 < (10 : ℕ) := by norm_num
  apply le_antisymm
  · have h0 := Int.lt_zpow_succ_log_self hb q
    have h2 : (q : ℝ) < ((10 : ℕ) : ℝ) ^ (Int.log 10 q + 1) := by
      rw [show ((10 : ℕ) : ℝ) = ((10 : ℚ) : ℝ) by norm_num, ← Rat.cast_zpow]
      exact_mod_cast h0
    have := (Int.lt_zpow_iff_log_lt hb hq').1 h2
    omega
  · have h0 := Int.zpow_log_le_self hb hq
    have h1 : ((10 : ℕ) : ℝ) ^ Int.log 10 q ≤ (q : ℝ) := by
      rw [show ((10 : ℕ) : ℝ) = ((10 : ℚ) : ℝ) by norm_num, ← Rat.cast_zpow]
      exact_mod_cast h0
    exact (Int.zpow_le_iff_le_log hb hq').1 h1

/-- C2 (amended): on a non-degenerate domain, `tickStep` computes the classic
"nice number" step with the `√50`, `√10`, `√2` thresholds (not "smallest of
`{1,2,5,10}` ≥ error"): with `rawStep = |stop−start| / max(1,count)`,
`power = ⌊log₁₀ rawStep⌋` and `error = rawStep / 10^power` over the reals,
the step is `10`, `5`, `2` or `1` according to whether `error` reaches `√50`,
`√10`, `√2`, scaled by `10^power` and signed by the domain direction. -/
theorem tickStep_eq_nice_real (start stop : ℚ) (n : ℕ) (h : start ≠ stop) :
    ((tickStep start stop n : ℚ) : ℝ) =
      (let rawStep : ℝ := |(stop : ℝ) - (start : ℝ)| / ((max 1 n : ℕ) : ℝ)
       let power : ℤ := ⌊Real.logb 10 rawStep⌋
       let error : ℝ := rawStep / (10 : ℝ) ^ power
       (if Real.sqrt 50 ≤ error then 10
        else if Real.sqrt 10 ≤ error then 5
        else if Real.sqrt 2 ≤ error then 2
        else 1) * (10 : ℝ) ^ power *
          (if stop - start < 0 then -1 else 1)) := by
  have hq : (0 : ℚ) < |stop - start| / (max 1 n : ℕ) := by
    apply div_pos
    · rw [abs_pos, sub_ne_zero]
      exact fun hc => h hc.symm
    · have h1 : 0 < max 1 n := lt_of_lt_of_le one_pos (le_max_left 1 n)
      exact_mod_cast h1
  set q : ℚ := |stop - start| / (max 1 n : ℕ) with hqdef
  have hcast : ((q : ℚ) : ℝ) = |(stop : ℝ) - (start : ℝ)| / ((max 1 n : ℕ) : ℝ) := by
    rw [hqdef]
    push_cast
    ring
  have hpow : ⌊Real.logb 10 (|(stop : ℝ) - (start : ℝ)| / ((max 1 n : ℕ) : ℝ))⌋ =
      Int.log 10 q := by
    rw [← hcast, show (10 : ℝ) = ((10 : ℕ) : ℝ) by norm_num,
      Real.floor_logb_natCast (by positivity), intLog10_ratCast hq]
  simp only [hpow]
  set L : ℤ := Int.log 10 q with hL
  have herrcast : ((q / (10 : ℚ) ^ L : ℚ) : ℝ) =
      |(stop : ℝ) - (start : ℝ)| / ((max 1 n : ℕ) : ℝ) / (10 : ℝ) ^ L := by
    rw [← hcast]
    push_cast
    ring
  have herr' : (0 : ℝ) ≤ |(stop : ℝ) - (start : ℝ)| / ((max 1 n : ℕ) : ℝ) / (10 : ℝ) ^ L := by
    rw [← herrcast]
    have hzpow : (0 : ℚ) < (10 : ℚ) ^ L := zpow_pos (by norm_num) _
    have := (div_pos hq hzpow).le
    exact_mod_cast this
  have hs50 : Real.sqrt 50 ≤
        |(stop : ℝ) - (start : ℝ)| / ((max 1 n : ℕ) : ℝ) / (10 : ℝ) ^ L ↔
      (50 : ℚ) ≤ (q / (10 : ℚ) ^ L) ^ 2 := by
    rw [Real.sqrt_le_left herr', ← herrcast]
    exact ⟨fun hx => by exact_mod_cast hx, fun hx => by exact_mod_cast hx⟩
  have hs10 : Real.sqrt 10 ≤
        |(stop : ℝ) - (start : ℝ)| / ((max 1 n : ℕ) : ℝ) / (10 : ℝ) ^ L ↔
      (10 : ℚ) ≤ (q / (10 : ℚ) ^ L) ^ 2 := by
    rw [Real.sqrt_le_left herr', ← herrcast]
    exact ⟨fun hx => by exact_mod_cast hx, fun hx => by exact_mod_cast hx⟩
  have hs2 : Real.sqrt 2 ≤
        |(stop : ℝ) - (start : ℝ)| / ((max 1 n : ℕ) : ℝ) / (10 : ℝ) ^ L ↔
      (2 : ℚ) ≤ (q / (10 : ℚ) ^ L) ^ 2 := by
    rw [Real.sqrt_le_left herr', ← herrcast]
    exact ⟨fun hx => by exact_mod_cast hx, fun hx => by exact_mod_cast hx⟩
  simp only [hs50, hs10, hs2, tickStep]
  rw [← hqdef, ← hL]
  split_ifs <;> push_cast <;> ring

/-- C2 witness instance: the domain `[0, 12]` with tick count 10. -/
theorem tickStep_eq_nice_real_witness :
    (0 : ℚ) ≠ 12 ∧
      ((tickStep 0 12 10 : ℚ) : ℝ) =
        (let rawStep : ℝ := |((12 : ℚ) : ℝ) - ((0 : ℚ) : ℝ)| / ((max 1 10 : ℕ) : ℝ)
         let power : ℤ := ⌊Real.logb 10 rawStep⌋
         let error : ℝ := rawStep / (10 : ℝ) ^ power
         (if Real.sqrt 50 ≤ error then 10
          else if Real.sqrt 10 ≤ error then 5
          else if Real.sqrt 2 ≤ error then 2
          else 1) * (10 : ℝ) ^ power *
            (if (12 : ℚ) - 0 < 0 then -1 else 1)) :=
  ⟨by norm_num, tickStep_eq_nice_real 0 12 10 (by norm_num)⟩

/-! ## Stacking aggregator (`stacked-area.ts`, `buildLayers`) -/

/-- A derived stacked-layer point (`LayerPoint` in `stacked-area.ts`). -/
structure LayerPoint where
  t : ℤ
  y0 : ℚ
  y1 : ℚ
  value : ℚ
deriving DecidableEq, Inhabited

/-- JS `Map.get(t) ?? 0` over a map built by consecutive `set` calls while
walking the series' points: the last entry for `t` wins; a missing timestamp
yields 0. -/
def lookupVal (ps : List (ℤ × ℚ)) (t : ℤ) : ℚ :=
  (ps.foldl (fun acc p => if p.1 = t then some p.2 else acc) none).getD 0

/-- The sorted union of all distinct timestamps over all series (the JS code
collects a `Set` of timestamps and sorts it numerically). -/
def unionTimes (series : List (List (ℤ × ℚ))) : List ℤ :=
  List.insertionSort (· ≤ ·) ((series.map fun s => s.map Prod.fst).flatten).dedup

/-- The `series.forEach` loop of `buildLayers`: each series reads the current
running totals as its `y0` row and writes back `y0 + value` per timestamp. -/
def buildLayersAux (times : List ℤ) :
    List (List (ℤ × ℚ)) → List ℚ → List (List LayerPoint) × List ℚ
  | [], totals => ([], totals)
  | s :: rest, totals =>
    let pts := (times.zip totals).map fun tb =>
      { t := tb.1, y0 := tb.2, y1 := tb.2 + lookupVal s tb.1,
        value := lookupVal s tb.1 : LayerPoint }
    let totals2 := (times.zip totals).map fun tb => tb.2 + lookupVal s tb.1
    let r := buildLayersAux times rest totals2
    (pts :: r.1, r.2)

/-- Embeds `buildLayers` from `stacked-area.ts`: the layer list, the union timeline
and the final per-timestamp grand totals (running totals start at 0). -/
def buildLayers (series : List (List (ℤ × ℚ))) :
    List (List LayerPoint) × List ℤ × List ℚ :=
  let times := unionTimes series
  let r := buildLayersAux times series (times.map fun _ => (0 : ℚ))
  (r.1, times, r.2)

/-- Running total of the values of all series before index `j` at timestamp
`t` (the claim's "running total of all earlier series"). -/
def stackPrefix (series : List (List (ℤ × ℚ))) (j : ℕ) (t : ℤ) : ℚ :=
  ((series.take j).map fun s => lookupVal s t).sum

theorem stackPrefix_zero (series : List (List (ℤ × ℚ))) (t : ℤ) :
    stackPrefix series 0 t = 0 := by
  simp [stackPrefix]

theorem stackPrefix_cons_succ (s : List (ℤ × ℚ)) (series : List (List (ℤ × ℚ)))
    (j : ℕ) (t : ℤ) :
    stackPrefix (s :: series) (j + 1) t = lookupVal s t + stackPrefix series j t := by
  simp [stackPrefix]

/-- Indexing a mapped zip of two lists at a position both lists populate. -/
theorem zipMap_getElem {α : Type} (f : ℤ × ℚ → α) {times : List ℤ} {totals : List ℚ}
    {i : ℕ} {t : ℤ} {b : ℚ} (ht : times[i]? = some t) (hb : totals[i]? = some b) :
    ((times.zip totals).map f)[i]? = some (f (t, b)) := by
  have hz : (times.zip totals)[i]? = some (t, b) :=
    List.getElem?_zip_eq_some.mpr ⟨ht, hb⟩
  rw [List.getElem?_map, hz]
  rfl

theorem buildLayersAux_fst_length (times : List ℤ) :
    ∀ (series : List (List (ℤ × ℚ))) (totals : List ℚ),
      (buildLayersAux times series totals).1.length = series.length
  | [], _ => rfl
  | s :: rest, totals => by
    simp [buildLayersAux, buildLayersAux_fst_length times rest]

/-- Final totals at a populated position: the incoming total plus the sum of
this timestamp's value over every series. -/
theorem buildLayersAux_totals (times : List ℤ) :
    ∀ (series : List (List (ℤ × ℚ))) (totals : List ℚ) (i : ℕ) (t : ℤ) (b : ℚ),
      times[i]? = some t → totals[i]? = some b →
      ((buildLayersAux times series totals).2)[i]? =
        some (b + ((series.map fun s => lookupVal s t).sum))
  | [], totals, i, t, b, _, hb => by
    simpa [buildLayersAux] using hb
  | s :: rest, totals, i, t, b, ht, hb => by
    have hb2 : ((times.zip totals).map fun tb => tb.2 + lookupVal s tb.1)[i]? =
        some (b + lookupVal s t) := zipMap_getElem _ ht hb
    have := buildLayersAux_totals times rest
      ((times.zip totals).map fun tb => tb.2 + lookupVal s tb.1) i t
      (b + lookupVal s t) ht hb2
    simp only [buildLayersAux]
    rw [this]
    congr 1
    simp
    ring

/-- The layer row of series `j` at a populated position: `y0` is the incoming
total plus the running prefix total, `y1` adds this series' own value. -/
theorem buildLayersAux_row (times : List ℤ) :
    ∀ (series : List (List (ℤ × ℚ))) (totals : List ℚ) (j : ℕ) (s : List (ℤ × ℚ))
      (i : ℕ) (t : ℤ) (b : ℚ),
      series[j]? = some s → times[i]? = some t → totals[i]? = some b →
      ∃ row, ((buildLayersAux times series totals).1)[j]? = some row ∧
        row[i]? = some ⟨t, b + stackPrefix series j t,
          b + stackPrefix series (j + 1) t, lookupVal s t⟩
  | [], _, j, s, _, _, _, hs, _, _ => by
    simp at hs
  | s0 :: rest, totals, 0, s, i, t, b, hs, ht, hb => by
    have hs0 : s = s0 := by
      simpa using hs.symm
    subst hs0
    refine ⟨(times.zip totals).map fun tb =>
      { t := tb.1, y0 := tb.2, y1 := tb.2 + lookupVal s tb.1,
        value := lookupVal s tb.1 : LayerPoint }, ?_, ?_⟩
    · simp [buildLayersAux]
    · rw [zipMap_getElem _ ht hb]
      congr 1
      simp [stackPrefix_zero, stackPrefix_cons_succ]
  | s0 :: rest, totals, j + 1, s, i, t, b, hs, ht, hb => by
    have hs' : rest[j]? = some s := by
      simpa using hs
    have hb2 : ((times.zip totals).map fun tb => tb.2 + lookupVal s0 tb.1)[i]? =
        some (b + lookupVal s0 t) := zipMap_getElem _ ht hb
    obtain ⟨row, hrow, hentry⟩ := buildLayersAux_row times rest
      ((times.zip totals).map fun tb => tb.2 + lookupVal s0 tb.1) j s i t
      (b + lookupVal s0 t) hs' ht hb2
    refine ⟨row, ?_, ?_⟩
    · simpa [buildLayersAux] using hrow
    · rw [hentry]
      congr 1
      simp [stackPrefix_cons_succ]
      constructor
      · ring
      · ring

/-- The per-timestamp sum of the layers' own values equals the sum of the
series' values at that timestamp. -/
theorem buildLayersAux_value_sum (times : List ℤ) :
    ∀ (series : List (List (ℤ × ℚ))) (totals : List ℚ) (i : ℕ) (t : ℤ) (b : ℚ),
      times[i]? = some t → totals[i]? = some b →
      (((buildLayersAux times series totals).1).map
          fun row => (row.getD i default).value).sum =
        (series.map fun s => lookupVal s t).sum
  | [], _, _, _, _, _, _ => rfl
  | s :: rest, totals, i, t, b, ht, hb => by
    have hhead : ((times.zip totals).map fun tb =>
        { t := tb.1, y0 := tb.2, y1 := tb.2 + lookupVal s tb.1,
          value := lookupVal s tb.1 : LayerPoint })[i]? =
        some ⟨t, b, b + lookupVal s t, lookupVal s t⟩ :=
      zipMap_getElem _ ht hb
    have hb2 : ((times.zip totals).map fun tb => tb.2 + lookupVal s tb.1)[i]? =
        some (b + lookupVal s t) := zipMap_getElem _ ht hb
    have hrest := buildLayersAux_value_sum times rest
      ((times.zip totals).map fun tb => tb.2 + lookupVal s tb.1) i t
      (b + lookupVal s t) ht hb2
    simp only [buildLayersAux, List.map_cons, List.sum_cons, hrest]
    rw [List.getD_eq_getElem?_getD, hhead]
    rfl

/-- A populated index read through `getElem?` yields the `getD` value. -/
theorem getElem?_eq_some_getD {α : Type} (l : List α) (i : ℕ) (h : i < l.length)
    (d : α) : l[i]? = some (l.getD i d) := by
  rw [List.getD_eq_getElem?_getD, List.getElem?_eq_getElem h]
  rfl

/-- One step of the running prefix total picks up the value of series `j`. -/
theorem stackPrefix_succ (series : List (List (ℤ × ℚ))) (j : ℕ) (t : ℤ)
    (hj : j < series.length) :
    stackPrefix series (j + 1) t =
      stackPrefix series j t + lookupVal (series.getD j []) t := by
  unfold stackPrefix
  rw [List.take_succ, getElem?_eq_some_getD series j hj []]
  simp

/-- The whole-list prefix total is the sum over every series. -/
theorem stackPrefix_length (series : List (List (ℤ × ℚ))) (t : ℤ) :
    stackPrefix series series.length t = ((series.map fun s => lookupVal s t).sum) := by
  unfold stackPrefix
  rw [List.take_length]

/-- C1: for every stacked-area render, the layers are built over the sorted
union of all distinct timestamps, and at every union timestamp: the layers'
own values sum to the grand total, `y1` of the last layer equals that total,
`y0` of the first layer is 0, and the layer of series `j` satisfies
`y1 = y0 + value` with `y0` equal to the running total of all earlier series
and `value` equal to the series' own value at that timestamp. -/
theorem buildLayers_stack_invariants (series : List (List (ℤ × ℚ)))
    (hne : series ≠ []) (i : ℕ) (hi : i < (buildLayers series).2.1.length) :
    (((buildLayers series).1.map fun row => (row.getD i default).value).sum =
        (buildLayers series).2.2.getD i 0) ∧
      (((buildLayers series).1.getD 0 []).getD i default).y0 = 0 ∧
      (((buildLayers series).1.getD (series.length - 1) []).getD i default).y1 =
        (buildLayers series).2.2.getD i 0 ∧
      (∀ j, j < series.length →
        (((buildLayers series).1.getD j []).getD i default).y1 =
            (((buildLayers series).1.getD j []).getD i default).y0 +
              (((buildLayers series).1.getD j []).getD i default).value ∧
          (((buildLayers series).1.getD j []).getD i default).y0 =
            stackPrefix series j ((buildLayers series).2.1.getD i 0) ∧
          (((buildLayers series).1.getD j []).getD i default).value =
            lookupVal (series.getD j []) ((buildLayers series).2.1.getD i 0)) ∧
      (buildLayers series).2.1.Sorted (· ≤ ·) ∧
      (buildLayers series).2.1.Nodup ∧
      (∀ u : ℤ, u ∈ (buildLayers series).2.1 ↔ ∃ s ∈ series, ∃ p ∈ s, p.1 = u) := by
  have hT : (buildLayers series).2.1 = unionTimes series := rfl
  set times := unionTimes series with htimes
  set tval : ℤ := times.getD i 0 with htval
  have hi' : i < times.length := by
    rw [hT] at hi
    exact hi
  have ht : times[i]? = some tval := getElem?_eq_some_getD times i hi' 0
  have hb0 : (times.map fun _ => (0 : ℚ))[i]? = some 0 := by
    rw [List.getElem?_map, ht]
    rfl
  have hrowOf : ∀ j, j < series.length →
      ((buildLayers series).1.getD j []).getD i default =
        ⟨tval, 0 + stackPrefix series j tval, 0 + stackPrefix series (j + 1) tval,
          lookupVal (series.getD j []) tval⟩ := by
    intro j hj
    obtain ⟨row, hrow, hentry⟩ := buildLayersAux_row times series
      (times.map fun _ => (0 : ℚ)) j (series.getD j []) i tval 0
      (getElem?_eq_some_getD series j hj []) ht hb0
    have hlay : (buildLayers series).1.getD j [] = row := by
      rw [List.getD_eq_getElem?_getD]
      show ((buildLayersAux times series (times.map fun _ => (0 : ℚ))).1[j]?).getD [] = row
      rw [hrow]
      rfl
    rw [hlay, List.getD_eq_getElem?_getD, hentry]
    rfl
  have htot : (buildLayers series).2.2.getD i 0 =
      (series.map fun s => lookupVal s tval).sum := by
    have := buildLayersAux_totals times series (times.map fun _ => (0 : ℚ)) i tval 0
      ht hb0
    rw [List.getD_eq_getElem?_getD]
    show ((buildLayersAux times series (times.map fun _ => (0 : ℚ))).2[i]?).getD 0 = _
    rw [this]
    simp
  have hlen0 : 0 < series.length := List.length_pos.mpr hne
  refine ⟨?_, ?_, ?_, ?_, ?_, ?_, ?_⟩
  · rw [htot]
    exact buildLayersAux_value_sum times series (times.map fun _ => (0 : ℚ)) i tval 0
      ht hb0
  · rw [hrowOf 0 hlen0]
    simp [stackPrefix_zero]
  · rw [hrowOf (series.length - 1) (by omega), htot]
    have : series.length - 1 + 1 = series.length := by omega
    rw [this, stackPrefix_length]
    simp
  · intro j hj
    have hgd : (buildLayers series).2.1.getD i 0 = tval := rfl
    rw [hrowOf j hj, hgd]
    refine ⟨?_, by simp, rfl⟩
    simp only [stackPrefix_succ series j tval hj]
    ring
  · exact List.sorted_insertionSort _ _
  · exact (List.perm_insertionSort _ _).nodup_iff.mpr (List.nodup_dedup _)
  · intro u
    rw [hT, htimes]
    unfold unionTimes
    rw [(List.perm_insertionSort _ _).mem_iff, List.mem_dedup, List.mem_flatten]
    constructor
    · rintro ⟨l, hl, hu⟩
      obtain ⟨s, hs, rfl⟩ := List.mem_map.mp hl
      obtain ⟨p, hp, rfl⟩ := List.mem_map.mp hu
      exact ⟨s, hs, p, hp, rfl⟩
    · rintro ⟨s, hs, p, hp, rfl⟩
      exact ⟨s.map Prod.fst, List.mem_map.mpr ⟨s, hs, rfl⟩,
        List.mem_map.mpr ⟨p, hp, rfl⟩⟩

/-- Concrete two-series stacked input used to witness the stack invariants:
series 0 has points (t=0, v=1), (t=3, v=2); series 1 has the point (t=0, v=4). -/
def witnessSeries : List (List (ℤ × ℚ)) := [[(0, 1), (3, 2)], [(0, 4)]]

/-- C1 witness instance: the two-series input evaluated at union timestamp
index 1. -/
theorem buildLayers_stack_invariants_witness :
    witnessSeries ≠ [] ∧ 1 < (buildLayers witnessSeries).2.1.length ∧
      ((((buildLayers witnessSeries).1.map fun row => (row.getD 1 default).value).sum =
          (buildLayers witnessSeries).2.2.getD 1 0) ∧
        (((buildLayers witnessSeries).1.getD 0 []).getD 1 default).y0 = 0 ∧
        (((buildLayers witnessSeries).1.getD (witnessSeries.length - 1) []).getD 1 default).y1 =
          (buildLayers witnessSeries).2.2.getD 1 0 ∧
        (∀ j, j < witnessSeries.length →
          (((buildLayers witnessSeries).1.getD j []).getD 1 default).y1 =
              (((buildLayers witnessSeries).1.getD j []).getD 1 default).y0 +
                (((buildLayers witnessSeries).1.getD j []).getD 1 default).value ∧
            (((buildLayers witnessSeries).1.getD j []).getD 1 default).y0 =
              stackPrefix witnessSeries j ((buildLayers witnessSeries).2.1.getD 1 0) ∧
            (((buildLayers witnessSeries).1.getD j []).getD 1 default).value =
              lookupVal (witnessSeries.getD j []) ((buildLayers witnessSeries).2.1.getD 1 0)) ∧
        (buildLayers witnessSeries).2.1.Sorted (· ≤ ·) ∧
        (buildLayers witnessSeries).2.1.Nodup ∧
        (∀ u : ℤ, u ∈ (buildLayers witnessSeries).2.1 ↔
          ∃ s ∈ witnessSeries, ∃ p ∈ s, p.1 = u)) :=
  ⟨by decide, by decide,
    buildLayers_stack_invariants witnessSeries (by decide) 1 (by decide)⟩

/-! ## Time-interval search (`shared.ts`, `MS` / `TIME_STEPS` /
`chooseTimeInterval` / `timeTicks`) -/

/-- The eight calendar units of `shared.ts` (the `auto` marker of the axis
option is modelled as `none` at the use site). -/
inductive TimeUnit
  | year | month | week | day | hour | minute | second | millisecond
deriving DecidableEq, Repr

/-- The `MS` unit-length table (month and year use average lengths). -/
def MS : TimeUnit → ℕ
  | .millisecond => 1
  | .second => 1000
  | .minute => 60000
  | .hour => 3600000
  | .day => 86400000
  | .week => 604800000
  | .month => 2629746000
  | .year => 31556952000

/-- The `TIME_STEPS` allowed step multipliers per unit. -/
def TIME_STEPS : TimeUnit → List ℕ
  | .year => [1, 2, 5, 10]
  | .month => [1, 3, 6]
  | .week => [1, 2, 4]
  | .day => [1, 2, 3, 7]
  | .hour => [1, 3, 6, 12]
  | .minute => [1, 5, 15, 30]
  | .second => [1, 5, 15, 30]
  | .millisecond => [1, 5, 10, 50, 100, 250, 500]

/-- In the source, `Object.keys(TIME_STEPS)` iterates the units in insertion order. -/
def timeUnitsInOrder : List TimeUnit :=
  [.year, .month, .week, .day, .hour, .minute, .second, .millisecond]

/-- The unit-then-step enumeration the nested `forEach` loops walk. -/
def timeCandidates : List (TimeUnit × ℕ) :=
  timeUnitsInOrder.flatMap fun u => (TIME_STEPS u).map fun s => (u, s)

/-- Computes `score = |span / (base × step) − desiredCount|` for one candidate. -/
def intervalScore (start stop : ℤ) (desired : ℚ) (c : TimeUnit × ℕ) : ℚ :=
  |((|stop - start| : ℤ) : ℚ) / ((MS c.1 * c.2 : ℕ) : ℚ) - desired|

/-- Decides `score < bestScore` where `bestScore` may be `Number.POSITIVE_INFINITY`
(modelled as `none`, which every finite score beats). -/
def scoreLt (s : ℚ) (best : Option ℚ) : Bool :=
  match best with
  | none => true
  | some b => decide (s < b)

/-- The candidate fold of `chooseTimeInterval`: keep the incumbent unless a
later candidate scores strictly lower. -/
def chooseAux (start stop : ℤ) (desired : ℚ) :
    List (TimeUnit × ℕ) → TimeUnit × ℕ → Option ℚ → TimeUnit × ℕ
  | [], best, _ => best
  | c :: rest, best, bestScore =>
    if scoreLt (intervalScore start stop desired c) bestScore
    then chooseAux start stop desired rest c (some (intervalScore start stop desired c))
    else chooseAux start stop desired rest best bestScore

/-- Embeds `chooseTimeInterval` from `shared.ts`: initial best `(day, 1)` with an
infinite best score. -/
def chooseTimeInterval (start stop : ℤ) (desired : ℚ) : TimeUnit × ℕ :=
  chooseAux start stop desired timeCandidates (.day, 1) none

/-- The unit/step resolution of `timeTicks`: a pinned unit maps to step 1,
`auto`/absent searches the candidates. -/
def resolveTimeInterval (unit : Option TimeUnit) (start stop : ℤ) (desired : ℚ) :
    TimeUnit × ℕ :=
  match unit with
  | none => chooseTimeInterval start stop desired
  | some u => (u, 1)

/-- The candidate fold abstracted over the scoring function (proof helper:
`chooseAux` is this fold at `intervalScore start stop desired`). -/
def argFold (f : TimeUnit × ℕ → ℚ) :
    List (TimeUnit × ℕ) → TimeUnit × ℕ → Option ℚ → TimeUnit × ℕ
  | [], best, _ => best
  | c :: rest, best, bestScore =>
    if scoreLt (f c) bestScore then argFold f rest c (some (f c))
    else argFold f rest best bestScore

theorem chooseAux_eq_argFold (start stop : ℤ) (desired : ℚ) :
    ∀ (l : List (TimeUnit × ℕ)) (b : TimeUnit × ℕ) (s : Option ℚ),
      chooseAux start stop desired l b s =
        argFold (intervalScore start stop desired) l b s
  | [], _, _ => rfl
  | c :: rest, b, s => by
    simp only [chooseAux, argFold]
    split_ifs with h
    · exact chooseAux_eq_argFold start stop desired rest c _
    · exact chooseAux_eq_argFold start stop desired rest b s

/-- The fold started at an incumbent carrying its own score returns the first
minimal-score element of incumbent-then-candidates: it beats everything before
it strictly and everything at or after it weakly. -/
theorem argFold_argmin (f : TimeUnit × ℕ → ℚ) :
    ∀ (l : List (TimeUnit × ℕ)) (b : TimeUnit × ℕ),
      ∃ pre post,
        b :: l = pre ++ argFold f l b (some (f b)) :: post ∧
          (∀ c ∈ pre, f (argFold f l b (some (f b))) < f c) ∧
          (∀ c ∈ post, f (argFold f l b (some (f b))) ≤ f c) := by
  intro l
  induction l with
  | nil =>
    intro b
    exact ⟨[], [], rfl, by simp, by simp⟩
  | cons c rest ih =>
    intro b
    by_cases hc : f c < f b
    · have hstep : argFold f (c :: rest) b (some (f b)) =
          argFold f rest c (some (f c)) := by
        simp [argFold, scoreLt, hc]
      rw [hstep]
      obtain ⟨pre, post, heq, hpre, hpost⟩ := ih c
      have hr_le : f (argFold f rest c (some (f c))) ≤ f c := by
        cases pre with
        | nil =>
          obtain ⟨h1, h2⟩ := List.cons_eq_cons.mp (by simpa using heq)
          rw [← h1]
        | cons p pre' =>
          obtain ⟨h1, h2⟩ := List.cons_eq_cons.mp (by simpa using heq)
          have := hpre p (by simp)
          rw [← h1] at this
          exact this.le
      refine ⟨b :: pre, post, ?_, ?_, hpost⟩
      · simp only [List.cons_append]
        rw [← heq]
      · intro x hx
        rcases List.mem_cons.mp hx with rfl | hx'
        · exact lt_of_le_of_lt hr_le hc
        · exact hpre x hx'
    · have hb_le : f b ≤ f c := not_lt.mp hc
      have hstep : argFold f (c :: rest) b (some (f b)) =
          argFold f rest b (some (f b)) := by
        simp [argFold, scoreLt, hc]
      rw [hstep]
      obtain ⟨pre, post, heq, hpre, hpost⟩ := ih b
      cases pre with
      | nil =>
        obtain ⟨h1, h2⟩ := List.cons_eq_cons.mp (by simpa using heq)
        refine ⟨[], c :: rest, ?_, by simp, ?_⟩
        · simp only [List.nil_append]
          rw [← h1]
        · intro x hx
          rcases List.mem_cons.mp hx with rfl | hx'
          · rw [← h1]
            exact hb_le
          · exact hpost x (h2 ▸ hx')
      | cons p pre' =>
        obtain ⟨h1, h2⟩ := List.cons_eq_cons.mp (by simpa using heq)
        have hrb : f (argFold f rest b (some (f b))) < f b := by
          have := hpre p (by simp)
          rw [← h1] at this
          exact this
        refine ⟨b :: c :: pre', post, ?_, ?_, hpost⟩
        · simp only [List.cons_append]
          rw [← h2]
        · intro x hx
          rcases List.mem_cons.mp hx with rfl | hx'
          · exact hrb
          · rcases List.mem_cons.mp hx' with rfl | hx''
            · exact lt_of_lt_of_le hrb hb_le
            · exact hpre x (by simp [hx''])

/-- C6: with the unit unpinned, `chooseTimeInterval` returns the candidate of
the fixed unit-then-step enumeration minimizing
`|span / (unitLengthMs × step) − desiredCount|`, the first-enumerated
candidate winning ties (it scores strictly below everything enumerated before
it and at most everything after it); with the unit pinned, the step is 1. -/
theorem chooseTimeInterval_spec (start stop : ℤ) (desired : ℚ) :
    (timeCandidates =
        [(TimeUnit.year, 1), (.year, 2), (.year, 5), (.year, 10),
         (.month, 1), (.month, 3), (.month, 6),
         (.week, 1), (.week, 2), (.week, 4),
         (.day, 1), (.day, 2), (.day, 3), (.day, 7),
         (.hour, 1), (.hour, 3), (.hour, 6), (.hour, 12),
         (.minute, 1), (.minute, 5), (.minute, 15), (.minute, 30),
         (.second, 1), (.second, 5), (.second, 15), (.second, 30),
         (.millisecond, 1), (.millisecond, 5), (.millisecond, 10),
         (.millisecond, 50), (.millisecond, 100), (.millisecond, 250),
         (.millisecond, 500)]) ∧
      (∃ pre post,
        timeCandidates = pre ++ chooseTimeInterval start stop desired :: post ∧
          (∀ c ∈ pre,
            intervalScore start stop desired (chooseTimeInterval start stop desired) <
              intervalScore start stop desired c) ∧
          (∀ c ∈ post,
            intervalScore start stop desired (chooseTimeInterval start stop desired) ≤
              intervalScore start stop desired c)) ∧
      (∀ u, resolveTimeInterval (some u) start stop desired = (u, 1)) := by
  refine ⟨rfl, ?_, fun u => rfl⟩
  have hstart : chooseTimeInterval start stop desired =
      argFold (intervalScore start stop desired) timeCandidates.tail (TimeUnit.year, 1)
        (some (intervalScore start stop desired (TimeUnit.year, 1))) := by
    unfold chooseTimeInterval
    rw [chooseAux_eq_argFold]
    rw [show timeCandidates = (TimeUnit.year, 1) :: timeCandidates.tail from rfl]
    simp [argFold, scoreLt]
  obtain ⟨pre, post, heq, hpre, hpost⟩ :=
    argFold_argmin (intervalScore start stop desired) timeCandidates.tail (TimeUnit.year, 1)
  rw [← hstart] at heq hpre hpost
  exact ⟨pre, post,
    by rw [show timeCandidates = (TimeUnit.year, 1) :: timeCandidates.tail from rfl]
       exact heq,
    hpre, hpost⟩

/-! ## Legend reservation and margin folding (`line.ts` / `stacked-area.ts`,
`renderLegend` / `mergeMargins`) -/

inductive LegendPosition
  | top | bottom
deriving DecidableEq

/-- The legend options both charts consume (`LegendOptions` in `types.ts`);
the source field `show` is called `showLegend` here (`show` is reserved). -/
structure LegendOptions where
  showLegend : Option Bool := none
  position : Option LegendPosition := none
  fontSize : Option ℚ := none
deriving DecidableEq

/-- A partial margin override (`dimensions.margin` of a request). -/
structure PartialMargins where
  top : Option ℚ := none
  right : Option ℚ := none
  bottom : Option ℚ := none
  left : Option ℚ := none
deriving DecidableEq

/-- Fully resolved margins. -/
structure ChartMargins where
  top : ℚ
  right : ℚ
  bottom : ℚ
  left : ℚ
deriving DecidableEq

/-- Embeds `DEFAULT_MARGINS` from `shared.ts`. -/
def DEFAULT_MARGINS : ChartMargins := ⟨28, 20, 38, 52⟩

/-- Embeds `mergeMargins` from `shared.ts`: each side falls back to the default. -/
def mergeMargins (custom : Option PartialMargins) : ChartMargins :=
  ⟨(custom.bind PartialMargins.top).getD DEFAULT_MARGINS.top,
   (custom.bind PartialMargins.right).getD DEFAULT_MARGINS.right,
   (custom.bind PartialMargins.bottom).getD DEFAULT_MARGINS.bottom,
   (custom.bind PartialMargins.left).getD DEFAULT_MARGINS.left⟩

/-- The reserved vertical legend space of the line chart's `renderLegend`
(`line.ts`): shown by default when more than one series survives; reserved
space is `fontSize + 10`, plus 6 when the position is `bottom`. -/
def lineLegendReserved (seriesCount : ℕ) (legend : Option LegendOptions) : ℚ :=
  let shown := (legend.bind LegendOptions.showLegend).getD (decide (1 < seriesCount))
  if !shown then 0
  else
    let fontSize := (legend.bind LegendOptions.fontSize).getD 12
    let verticalSpace := fontSize + 10
    let position := (legend.bind LegendOptions.position).getD .top
    verticalSpace + (if position = .bottom then 6 else 0)

/-- The reserved vertical legend space of the stacked-area chart's
`renderLegend` (`stacked-area.ts`): the returned reservation is
`verticalSpace + 6` with no position check. -/
def stackedLegendReserved (seriesCount : ℕ) (legend : Option LegendOptions) : ℚ :=
  let shown := (legend.bind LegendOptions.showLegend).getD (decide (1 < seriesCount))
  if !shown then 0
  else
    let fontSize := (legend.bind LegendOptions.fontSize).getD 12
    let verticalSpace := fontSize + 10
    verticalSpace + 6

/-- The final top margin of `renderLineChart`: the merged margins with `top`
raised by the legend reservation, merged again. -/
def lineTopMargin (custom : Option PartialMargins) (seriesCount : ℕ)
    (legend : Option LegendOptions) : ℚ :=
  let base := mergeMargins custom
  (mergeMargins (some ⟨some (base.top + lineLegendReserved seriesCount legend),
    some base.right, some base.bottom, some base.left⟩)).top

/-- The final top margin of `renderStackedAreaChart`. -/
def stackedTopMargin (custom : Option PartialMargins) (seriesCount : ℕ)
    (legend : Option LegendOptions) : ℚ :=
  let base := mergeMargins custom
  (mergeMargins (some ⟨some (base.top + stackedLegendReserved seriesCount legend),
    some base.right, some base.bottom, some base.left⟩)).top

/-- C4 (amended): for a shown legend the line chart reserves
`fontSize + 10`, plus 6 more only when the position is `bottom`, while the
stacked-area chart always reserves `fontSize + 10 + 6` regardless of
position; both orchestrators fold the reservation into the merged top margin,
and with no legend options the legend is shown exactly when more than one
series survives normalization. -/
theorem legend_reservation_spec (count : ℕ) (legend : Option LegendOptions)
    (custom : Option PartialMargins) :
    (lineLegendReserved count legend =
        if (legend.bind LegendOptions.showLegend).getD (decide (1 < count)) then
          (legend.bind LegendOptions.fontSize).getD 12 + 10 +
            (if (legend.bind LegendOptions.position).getD .top = LegendPosition.bottom
              then 6 else 0)
        else 0) ∧
      (stackedLegendReserved count legend =
        if (legend.bind LegendOptions.showLegend).getD (decide (1 < count)) then
          (legend.bind LegendOptions.fontSize).getD 12 + 10 + 6
        else 0) ∧
      (lineTopMargin custom count legend =
        (mergeMargins custom).top + lineLegendReserved count legend) ∧
      (stackedTopMargin custom count legend =
        (mergeMargins custom).top + stackedLegendReserved count legend) ∧
      (lineLegendReserved count none ≠ 0 ↔ 1 < count) ∧
      (stackedLegendReserved count none ≠ 0 ↔ 1 < count) := by
  refine ⟨?_, ?_, ?_, ?_, ?_, ?_⟩
  · unfold lineLegendReserved
    cases hb : (legend.bind LegendOptions.showLegend).getD (decide (1 < count)) <;>
      simp [hb]
  · unfold stackedLegendReserved
    cases hb : (legend.bind LegendOptions.showLegend).getD (decide (1 < count)) <;>
      simp [hb]
  · unfold lineTopMargin mergeMargins
    simp
  · unfold stackedTopMargin mergeMargins
    simp
  · unfold lineLegendReserved
    by_cases hcount : 1 < count <;> simp [hcount] ; norm_num
  · unfold stackedLegendReserved
    by_cases hcount : 1 < count <;> simp [hcount] ; norm_num

/-- C4 counterexample: a stacked-area legend for two series with default
options (position defaults away from `bottom`, `fontSize` 12) reserves 28
pixels, not the `fontSize + 10 = 22` the claim predicts for a non-bottom
position. -/
theorem stacked_legend_counterexample :
    stackedLegendReserved 2 none = 28 ∧
      ((12 : ℚ) + 10 +
        (if LegendPosition.top = LegendPosition.bottom then 6 else 0)) = 22 ∧
      stackedLegendReserved 2 none ≠
        (12 : ℚ) + 10 +
          (if LegendPosition.top = LegendPosition.bottom then 6 else 0) := by
  have h : stackedLegendReserved 2 none = 28 := by
    unfold stackedLegendReserved
    norm_num
  have hne : LegendPosition.top ≠ LegendPosition.bottom := by decide
  refine ⟨h, ?_, ?_⟩
  · rw [if_neg hne]
    norm_num
  · rw [h, if_neg hne]
    norm_num

/-! ## Series normalization and input validation (`line.ts` /
`stacked-area.ts`, `normalizeSeries` / `renderLineChart` /
`renderStackedAreaChart`) -/

/-- A raw input point after date parsing: `v = none` models a value that does
not coerce to a finite number (dropped by the filter). -/
structure RawPoint where
  t : ℤ
  v : Option ℚ
deriving DecidableEq

/-- A raw input series (the fields the normalizer reads). -/
structure RawSeries where
  data : List RawPoint
  color : Option String := none
deriving DecidableEq

/-- A normalized series: assigned color and parsed, sorted points. -/
structure NormSeries where
  color : String
  parsed : List (ℤ × ℚ)
deriving DecidableEq

/-- Embeds `DEFAULT_COLORS` from `shared.ts`. -/
def DEFAULT_COLORS : List String :=
  ["#2563eb", "#ef4444", "#10b981", "#f59e0b",
   "#8b5cf6", "#14b8a6", "#e11d48", "#0ea5e9"]

/-- The `.map(...).filter(Number.isFinite)` step of `normalizeSeries`: keep
the points whose value is a finite number. -/
def filterFinite (data : List RawPoint) : List (ℤ × ℚ) :=
  data.filterMap fun p => p.v.map fun v => (p.t, v)

/-- Embeds `normalizeSeries` (identical in `line.ts` and `stacked-area.ts`): parse
and filter each series' points, sort ascending by time, assign a palette
color by original index, drop series left with no points. -/
def normalizeSeries (series : List RawSeries) : List NormSeries :=
  (series.enum.map fun is =>
    { color := is.2.color.getD (DEFAULT_COLORS.getD (is.1 % DEFAULT_COLORS.length) ""),
      parsed := List.insertionSort (fun a b => a.1 ≤ b.1) (filterFinite is.2.data)
      : NormSeries }).filter
    fun s => decide (0 < s.parsed.length)

/-- The two validation failures of C7 (`EmptyInput`, `NoValidPoints`). -/
inductive ChartError
  | EmptyInput | NoValidPoints
deriving DecidableEq

/-- The validation prefix of `renderLineChart` (`line.ts`): a missing or
non-array series input is modelled as `none`. -/
def validateLineSeries (series : Option (List RawSeries)) :
    Except ChartError (List NormSeries) :=
  match series with
  | none => .error .EmptyInput
  | some ss =>
    if ss.length = 0 then .error .EmptyInput
    else
      let ns := normalizeSeries ss
      if ns.length = 0 then .error .NoValidPoints
      else .ok ns

/-- The validation prefix of `renderStackedAreaChart` (`stacked-area.ts`). -/
def validateStackedSeries (series : Option (List RawSeries)) :
    Except ChartError (List NormSeries) :=
  match series with
  | none => .error .EmptyInput
  | some ss =>
    if ss.length = 0 then .error .EmptyInput
    else
      let ns := normalizeSeries ss
      if ns.length = 0 then .error .NoValidPoints
      else .ok ns

/-- Normalization drops everything exactly when every series' finite-value
point list is empty. -/
theorem normalizeSeries_eq_nil_iff (ss : List RawSeries) :
    normalizeSeries ss = [] ↔ ∀ s ∈ ss, filterFinite s.data = [] := by
  unfold normalizeSeries
  rw [List.filter_eq_nil_iff]
  constructor
  · intro h s hs
    have hs' : s ∈ ss.enum.map Prod.snd := by
      rw [List.enum_map_snd]
      exact hs
    obtain ⟨is, his, hsnd⟩ := List.mem_map.mp hs'
    have := h _ (List.mem_map.mpr ⟨is, his, rfl⟩)
    simp only [decide_eq_true_eq, not_lt, Nat.le_zero] at this
    rw [List.length_insertionSort] at this
    rw [← hsnd]
    exact List.length_eq_zero.mp this
  · intro h x hx
    obtain ⟨is, his, rfl⟩ := List.mem_map.mp hx
    have hmem : is.2 ∈ ss := by
      rw [← List.enum_map_snd ss]
      exact List.mem_map.mpr ⟨is, his, rfl⟩
    have hnil := h is.2 hmem
    simp only [decide_eq_true_eq, not_lt, Nat.le_zero]
    rw [List.length_insertionSort, hnil]
    rfl

/-- C7: both orchestrators raise `EmptyInput` exactly when the series input
is missing/not an array (`none`) or empty, and raise `NoValidPoints` exactly
when the input is a non-empty array in which every series loses all its
points to the finite-value filter; on an error no normalized output (and
hence no SVG) is produced. -/
theorem validate_errors_spec (input : Option (List RawSeries)) :
    (validateLineSeries input = .error .EmptyInput ↔
        input = none ∨ input = some []) ∧
      (validateLineSeries input = .error .NoValidPoints ↔
        ∃ ss, input = some ss ∧ ss ≠ [] ∧ ∀ s ∈ ss, filterFinite s.data = []) ∧
      (validateStackedSeries input = .error .EmptyInput ↔
        input = none ∨ input = some []) ∧
      (validateStackedSeries input = .error .NoValidPoints ↔
        ∃ ss, input = some ss ∧ ss ≠ [] ∧ ∀ s ∈ ss, filterFinite s.data = []) := by
  have hline : ∀ ss : List RawSeries, validateLineSeries (some ss) =
      validateStackedSeries (some ss) := fun _ => rfl
  cases input with
  | none =>
    refine ⟨by simp [validateLineSeries], ?_, by simp [validateStackedSeries], ?_⟩ <;>
      simp [validateLineSeries, validateStackedSeries]
  | some ss =>
    by_cases hss : ss = []
    · subst hss
      refine ⟨?_, ?_, ?_, ?_⟩ <;>
        simp [validateLineSeries, validateStackedSeries]
    · have hlen : ¬ss.length = 0 := fun hc => hss (List.length_eq_zero.mp hc)
      by_cases hns : normalizeSeries ss = []
      · have hnslen : (normalizeSeries ss).length = 0 := by rw [hns]; rfl
        refine ⟨?_, ?_, ?_, ?_⟩ <;>
          simp [validateLineSeries, validateStackedSeries, hlen, hnslen, hss]
        all_goals
          exact (normalizeSeries_eq_nil_iff ss).mp hns
      · have hnslen : ¬(normalizeSeries ss).length = 0 :=
          fun hc => hns (List.length_eq_zero.mp hc)
        refine ⟨?_, ?_, ?_, ?_⟩ <;>
          simp [validateLineSeries, validateStackedSeries, hlen, hnslen, hss]
        all_goals
          by_contra hcon
          push_neg at hcon
          exact hns ((normalizeSeries_eq_nil_iff ss).mpr hcon)

/-! ## Area path construction (`shared.ts`, `areaPath`) -/

/-- Decimal digit string of a natural number (the embedding's rendering of a
JS number inside a path string; fuelled recursion on `n / 10`). -/
def natChars : ℕ → ℕ → List Char
  | 0, _ => []
  | fuel + 1, n =>
    if n < 10 then [Nat.digitChar n]
    else natChars fuel (n / 10) ++ [Nat.digitChar (n % 10)]

/-- String of a natural number. -/
def natStr (n : ℕ) : String := ⟨natChars (n + 1) n⟩

/-- String of a rational coordinate (sign, numerator digits, and a `/den`
suffix for non-integers); emits only digits, `-`, `,`-free characters. -/
def ratStr (q : ℚ) : String :=
  (if q.num < 0 then "-" else "") ++ natStr q.num.natAbs ++
    (if q.den = 1 then "" else "/" ++ natStr q.den)

/-- JS `Array.join(" ")`. -/
def joinSp : List String → String
  | [] => ""
  | [s] => s
  | s :: rest => s ++ " " ++ joinSp rest

/-- A screen-space area point (`{x, y0, y1}` handed to `areaPath`). -/
structure AreaPoint where
  x : ℚ
  y0 : ℚ
  y1 : ℚ
deriving DecidableEq

/-- Embeds `areaPath` from `shared.ts`: empty input yields the empty string; else
the upper boundary (`M` then `L` commands over `y1`, forward), the lower
boundary (`L` commands over `y0`, reversed) and a closing `Z`. -/
def areaPath (points : List AreaPoint) : String :=
  match points with
  | [] => ""
  | _ =>
    let upper := joinSp (points.enum.map fun ip =>
      (if ip.1 = 0 then "M" else "L") ++ ratStr ip.2.x ++ "," ++ ratStr ip.2.y1)
    let lower := joinSp (points.reverse.map fun p =>
      "L" ++ ratStr p.x ++ "," ++ ratStr p.y0)
    upper ++ " " ++ lower ++ " Z"

/-- Is this character an `M`/`L` command letter? -/
def isCmd (c : Char) : Bool := c = 'M' || c = 'L'

/-- Number of `M`/`L` command letters in a path string. -/
def countML (s : String) : ℕ := (s.data.filter isCmd).length

theorem countML_append (s t : String) : countML (s ++ t) = countML s + countML t := by
  unfold countML
  rw [String.data_append, List.filter_append, List.length_append]

theorem countML_joinSp (l : List String) :
    countML (joinSp l) = (l.map countML).sum := by
  induction l with
  | nil => rfl
  | cons s rest ih =>
    cases rest with
    | nil => simp [joinSp]
    | cons t rest' =>
      rw [show joinSp (s :: t :: rest') = s ++ " " ++ joinSp (t :: rest') from rfl,
        countML_append, countML_append, ih]
      have hsp : countML " " = 0 := rfl
      simp [hsp]

theorem isCmd_digitChar (n : ℕ) (h : n < 10) : isCmd (Nat.digitChar n) = false := by
  interval_cases n <;> rfl

theorem natChars_no_cmd (fuel : ℕ) :
    ∀ (n : ℕ), ∀ c ∈ natChars fuel n, isCmd c = false := by
  induction fuel with
  | zero =>
    intro n c hc
    simp [natChars] at hc
  | succ fuel ih =>
    intro n c hc
    unfold natChars at hc
    by_cases h : n < 10
    · rw [if_pos h] at hc
      simp only [List.mem_singleton] at hc
      subst hc
      exact isCmd_digitChar n h
    · rw [if_neg h] at hc
      rw [List.mem_append] at hc
      rcases hc with hc | hc
      · exact ih _ c hc
      · simp only [List.mem_singleton] at hc
        subst hc
        exact isCmd_digitChar _ (Nat.mod_lt n (by norm_num))

theorem countML_natStr (n : ℕ) : countML (natStr n) = 0 := by
  unfold countML natStr
  rw [List.length_eq_zero, List.filter_eq_nil_iff]
  intro c hc
  rw [natChars_no_cmd (n + 1) n c hc]
  simp

theorem countML_ratStr (q : ℚ) : countML (ratStr q) = 0 := by
  unfold ratStr
  rw [countML_append, countML_append]
  have h1 : countML (if q.num < 0 then "-" else "") = 0 := by
    split_ifs <;> rfl
  have h2 := countML_natStr q.num.natAbs
  have h3 : countML (if q.den = 1 then "" else "/" ++ natStr q.den) = 0 := by
    split_ifs with hd
    · rfl
    · rw [countML_append, countML_natStr]
      rfl
  omega

/-- Each emitted upper-boundary command contributes exactly one `M`/`L`. -/
theorem countML_upper_piece (i : ℕ) (p : AreaPoint) :
    countML ((if i = 0 then "M" else "L") ++ ratStr p.x ++ "," ++ ratStr p.y1) = 1 := by
  rw [countML_append, countML_append, countML_append, countML_ratStr, countML_ratStr]
  have hcomma : countML "," = 0 := rfl
  have hhead : countML (if i = 0 then "M" else "L") = 1 := by
    split_ifs <;> rfl
  omega

/-- Each emitted lower-boundary command contributes exactly one `M`/`L`. -/
theorem countML_lower_piece (p : AreaPoint) :
    countML ("L" ++ ratStr p.x ++ "," ++ ratStr p.y0) = 1 := by
  rw [countML_append, countML_append, countML_append, countML_ratStr, countML_ratStr]
  rfl

/-- C8: the path of an empty point sequence is the empty string (no error);
a non-empty path ends in `Z`; and the number of `M`/`L` commands is always
`2 × pointCount` (upper boundary forward plus lower boundary reversed). -/
theorem areaPath_spec (points : List AreaPoint) :
    areaPath [] = "" ∧
      (areaPath points).data.getLast? = (if points = [] then none else some 'Z') ∧
      countML (areaPath points) = 2 * points.length := by
  refine ⟨rfl, ?_, ?_⟩
  · cases points with
    | nil => rfl
    | cons p rest =>
      rw [if_neg (List.cons_ne_nil p rest)]
      show ((joinSp ((p :: rest).enum.map fun ip =>
          (if ip.1 = 0 then "M" else "L") ++ ratStr ip.2.x ++ "," ++ ratStr ip.2.y1) ++
          " " ++ joinSp ((p :: rest).reverse.map fun q =>
            "L" ++ ratStr q.x ++ "," ++ ratStr q.y0) ++ " Z")).data.getLast? = some 'Z'
      rw [String.data_append, List.getLast?_append_of_ne_nil _ (by decide)]
      rfl
  · cases points with
    | nil => rfl
    | cons p rest =>
      show countML (joinSp ((p :: rest).enum.map fun ip =>
          (if ip.1 = 0 then "M" else "L") ++ ratStr ip.2.x ++ "," ++ ratStr ip.2.y1) ++
          " " ++ joinSp ((p :: rest).reverse.map fun q =>
            "L" ++ ratStr q.x ++ "," ++ ratStr q.y0) ++ " Z") = 2 * (p :: rest).length
      rw [countML_append, countML_append, countML_append, countML_joinSp, countML_joinSp]
      have hupper : (((p :: rest).enum.map fun ip =>
          (if ip.1 = 0 then "M" else "L") ++ ratStr ip.2.x ++ "," ++ ratStr ip.2.y1).map
            countML).sum = (p :: rest).length := by
        rw [List.map_map]
        have hone : ∀ ip ∈ (p :: rest).enum, (countML ∘ fun ip =>
            (if ip.1 = 0 then "M" else "L") ++ ratStr ip.2.x ++ "," ++ ratStr ip.2.y1) ip
              = (fun _ => 1) ip := by
          intro ip _
          exact countML_upper_piece ip.1 ip.2
        rw [List.map_congr_left hone]
        rw [← List.enum_length (l := p :: rest)]
        induction (p :: rest).enum with
        | nil => rfl
        | cons h t ih => simp [ih] ; omega
      have hlower : (((p :: rest).reverse.map fun q =>
          "L" ++ ratStr q.x ++ "," ++ ratStr q.y0).map countML).sum =
            (p :: rest).length := by
        rw [List.map_map]
        have hone : ∀ q ∈ (p :: rest).reverse, (countML ∘ fun q =>
            "L" ++ ratStr q.x ++ "," ++ ratStr q.y0) q = (fun _ => 1) q := by
          intro q _
          exact countML_lower_piece q
        rw [List.map_congr_left hone]
        rw [← List.length_reverse (p :: rest)]
        induction (p :: rest).reverse with
        | nil => rfl
        | cons h t ih => simp [ih] ; omega
      rw [hupper, hlower]
      have hsp : countML " " = 0 := rfl
      have hz : countML " Z" = 0 := rfl
      rw [hsp, hz]
      omega

/-! ## Degenerate-domain safety of the scales (C5) -/

/-- Every layer produced over a timeline of populated totals spans the whole
timeline. -/
theorem buildLayersAux_layer_length (times : List ℤ) :
    ∀ (series : List (List (ℤ × ℚ))) (totals : List ℚ),
      totals.length = times.length →
      ∀ layer ∈ (buildLayersAux times series totals).1, layer.length = times.length
  | [], _, _ => by
    intro layer hl
    simp [buildLayersAux] at hl
  | s :: rest, totals, h => by
    intro layer hl
    simp only [buildLayersAux, List.mem_cons] at hl
    rcases hl with rfl | hl
    · rw [List.length_map, List.length_zip, h, min_self]
    · exact buildLayersAux_layer_length times rest _
        (by rw [List.length_map, List.length_zip, h, min_self]) layer hl

/-- A non-empty point sequence always yields a non-empty path string. -/
theorem areaPath_ne_empty_of_ne_nil (points : List AreaPoint) (h : points ≠ []) :
    areaPath points ≠ "" := by
  cases points with
  | nil => exact absurd rfl h
  | cons p rest =>
    intro hc
    have hdata := congrArg String.data hc
    rw [show areaPath (p :: rest) =
        joinSp ((p :: rest).enum.map fun ip =>
          (if ip.1 = 0 then "M" else "L") ++ ratStr ip.2.x ++ "," ++ ratStr ip.2.y1) ++
          " " ++ joinSp ((p :: rest).reverse.map fun q =>
            "L" ++ ratStr q.x ++ "," ++ ratStr q.y0) ++ " Z" from rfl,
      String.data_append] at hdata
    have : (" Z" : String).data = [] := (List.append_eq_nil.mp hdata).2
    simp at this

/-- C5: a degenerate domain never divides by zero: the scale substitutes a
denominator of 1, returning the well-defined constant-slope offset
`r0 + (value − d0)·(r1 − r0)`; and the single-timestamp stacked-area request
with series `[{t:0,v:0}]` and `[{t:0,v:3}]` still yields a non-empty area
path per layer through the degenerate time scale, rather than crashing. -/
theorem scale_degenerate_spec (d0 r0 r1 v : ℚ) :
    createLinearScale (d0, d0) (r0, r1) v = r0 + (v - d0) * (r1 - r0) ∧
      (buildLayers [[(0, 0)], [(0, 3)]]).1.length = 2 ∧
      ∀ layer ∈ (buildLayers [[(0, 0)], [(0, 3)]]).1,
        areaPath (layer.map fun p =>
          ⟨createTimeScale (0, 0) (52, 780) (p.t : ℚ),
           createLinearScale (computeYDomain [0, 3] none) (362, 56) p.y0,
           createLinearScale (computeYDomain [0, 3] none) (362, 56) p.y1⟩) ≠ "" := by
  refine ⟨?_, ?_, ?_⟩
  · show r0 + (v - d0) * ((r1 - r0) / if d0 - d0 = 0 then 1 else d0 - d0) =
      r0 + (v - d0) * (r1 - r0)
    rw [if_pos (sub_self d0), div_one]
  · exact buildLayersAux_fst_length _ _ _
  · intro layer hl
    have hlen : layer.length = (unionTimes [[(0, 0)], [(0, 3)]]).length :=
      buildLayersAux_layer_length _ _ _ (by rw [List.length_map]) layer hl
    have h1 : (unionTimes [[((0 : ℤ), (0 : ℚ))], [(0, 3)]]).length = 1 := rfl
    apply areaPath_ne_empty_of_ne_nil
    intro hc
    rw [List.map_eq_nil_iff] at hc
    rw [hc, h1] at hlen
    simp at hlen
